import Mathlib

/-!
# Verification of the `openai-files` reconciliation logic

Shallow embedding of `main.go`. File-system walking, HTTP transport and JSON
parsing are abstracted: the folder walk becomes an explicit inventory
(a list of `(path, sha256)` pairs), the remote store becomes an abstract
identifier assignment `uploadId : String → String` together with explicit
lists of the remote calls the run would issue, and the persisted manifest
file becomes an explicit `DiskState`.

Go's `map[string]FileInfo` is modelled as an association list with unique
keys: insertion replaces the value of an existing key in place, otherwise
appends.  Go randomises map iteration order; this model determinises it to
the association-list order (first-insertion order), which is one of the
orders Go may produce.
-/

/-- Embeds the Go struct `FileInfo` (main.go lines 19-24):
`Path`, `SHA256`, `FileID` (`omitempty`), `ManifestID` (`omitempty`). -/
structure FileInfo where
  path : String
  sha256 : String
  fileID : String
  manifestID : String
deriving DecidableEq, Repr

/-- Embeds the Go struct `LogInfo` (main.go lines 32-40). -/
structure LogInfo where
  generatedAt : String
  openAIAPIKey : String
  scanFolder : String
  vectorStoreID : String
  cleanup : Bool
  dryRun : Bool
  outputFile : String
deriving DecidableEq, Repr

/-- Embeds the Go struct `Manifest` (main.go lines 26-30). -/
structure Manifest where
  manifestID : String
  files : List FileInfo
  loggingInfo : LogInfo
deriving DecidableEq, Repr

/-- The zero value of `LogInfo` (Go zero-value semantics for `var`). -/
def zeroLogInfo : LogInfo :=
  ⟨"", "", "", "", false, false, ""⟩

/-- The zero value of `Manifest`: what `var manifest Manifest` produces
(main.go line 63). -/
def zeroManifest : Manifest :=
  ⟨"", [], zeroLogInfo⟩

/-- Go map assignment `m[f.Path] = f`: replace the entry with the same key
in place, otherwise append. -/
def mapInsert (m : List FileInfo) (f : FileInfo) : List FileInfo :=
  match m with
  | [] => [f]
  | g :: rest => if g.path = f.path then f :: rest else g :: mapInsert rest f

/-- Go map lookup `m[p]`. -/
def mapLookup (m : List FileInfo) (p : String) : Option FileInfo :=
  match m with
  | [] => none
  | g :: rest => if g.path = p then some g else mapLookup rest p

/-- The paths (map keys) of a record list. -/
def pathsOf (m : List FileInfo) : List String :=
  m.map FileInfo.path

/-- Embeds main.go lines 127-130: build `manifestMap` from `manifest.Files`
by successive Go map assignments (later duplicates overwrite earlier). -/
def buildMap (fs : List FileInfo) : List FileInfo :=
  fs.foldl mapInsert []

/-- Embeds the walk callback body, main.go lines 133-138: for a scanned
entry `e = (path, hash)`, if no map entry for `path` exists or its stored
`SHA256` differs from `hash`, store a fresh record
`FileInfo(Path: path, SHA256: hash, ManifestID: mid)` (empty `FileID`). -/
def scanStep (mid : String) (m : List FileInfo) (e : String × String) : List FileInfo :=
  match mapLookup m e.1 with
  | some fi => if fi.sha256 ≠ e.2 then mapInsert m ⟨e.1, e.2, "", mid⟩ else m
  | none => mapInsert m ⟨e.1, e.2, "", mid⟩

/-- Embeds `scanFolder` (main.go lines 126-148), with the `filepath.Walk`
of the folder abstracted to the explicit `inventory` of
`(path, sha256-of-content)` pairs it visits. The resulting `Files` list is
the map's entries (iteration order determinised to insertion order). -/
def scanFolder (inventory : List (String × String)) (manifest : Manifest) : Manifest :=
  let m0 := buildMap manifest.files
  let m1 := inventory.foldl (scanStep manifest.manifestID) m0
  ⟨manifest.manifestID, m1, manifest.loggingInfo⟩

/-- The value that the scan leaves in the map for an entry `e`, as a
function of the previous map value at `e`'s path (derived description of
`scanStep`, used to state lookup lemmas). -/
def scanOutcome (mid : String) (old : Option FileInfo) (e : String × String) : FileInfo :=
  match old with
  | some fi => if fi.sha256 ≠ e.2 then ⟨e.1, e.2, "", mid⟩ else fi
  | none => ⟨e.1, e.2, "", mid⟩

/-- Embeds the upload loop, main.go lines 94-103, as a pure state update:
every record whose `FileID` is empty receives the identifier the remote
store assigns for its path. -/
def applyUploads (u : String → String) (fs : List FileInfo) : List FileInfo :=
  fs.map fun f => if f.fileID = "" then ⟨f.path, f.sha256, u f.path, f.manifestID⟩ else f

/-- The paths for which the upload loop calls `uploadFile`: exactly the
records with an empty `FileID` (main.go line 95), in list order. -/
def uploadCalls (fs : List FileInfo) : List String :=
  (fs.filter fun f => f.fileID = "").map FileInfo.path

/-- The remote identifiers passed to `createVectorStoreFile` by the upload
loop (main.go line 101). -/
def indexCalls (u : String → String) (fs : List FileInfo) : List String :=
  (uploadCalls fs).map u

/-- Embeds `performCleanup` (main.go lines 270-286): the `FileID`s of
`oldManifest` records whose `FileID` is not a key of the map built from
`updatedManifest.Files`; each such id gets one `deleteFile` and one
`removeFromVectorStore` call, in `oldManifest.Files` order. -/
def performCleanup (updatedManifest oldManifest : Manifest) : List String :=
  let ids := updatedManifest.files.map FileInfo.fileID
  (oldManifest.files.filter fun f => ! ids.contains f.fileID).map FileInfo.fileID

/-- Embeds `hideAPIKey` (main.go lines 298-303), with Go's byte indexing
modelled as character indexing (API keys are ASCII). -/
def hideAPIKey (apiKey : String) : String :=
  let cs := apiKey.data
  if 6 < cs.length then
    ⟨cs.take 3 ++ List.replicate (cs.length - 6) '*' ++ cs.drop (cs.length - 3)⟩
  else
    ⟨List.replicate cs.length '*'⟩

/-- The state of the persisted manifest file at the output path before a
run: absent (`os.Stat` fails), present but not decodable by
`json.Unmarshal`, or decodable to a manifest value. -/
inductive DiskState where
  | absent : DiskState
  | corrupt : DiskState
  | valid : Manifest → DiskState
deriving DecidableEq, Repr

/-- Embeds main.go lines 63-71: `var manifest Manifest` followed by the
optional read and `json.Unmarshal`, whose error is discarded, so a corrupt
file leaves the zero-value manifest.  The second component is the list of
warnings logged while loading: the source logs none. -/
def loadManifest : DiskState → Manifest × List String
  | .absent => (zeroManifest, [])
  | .corrupt => (zeroManifest, [])
  | .valid m => (m, [])

/-- JSON string escaping as done by `encoding/json` for quote and
backslash; other characters are kept as is (the model is used on strings
without control or HTML-escaped characters). -/
def escapeJSON (s : String) : String :=
  ⟨s.data.foldr (fun c acc =>
      if c = '"' then '\\' :: '"' :: acc
      else if c = '\\' then '\\' :: '\\' :: acc
      else c :: acc) []⟩

/-- A JSON string literal. -/
def quoteJSON (s : String) : String :=
  "\"" ++ escapeJSON s ++ "\""

/-- A JSON boolean literal. -/
def boolJSON (b : Bool) : String :=
  if b then "true" else "false"

/-- Models the `json.MarshalIndent` output for one `FileInfo` as an element of the
`files` array (indent prefix two levels deep): fields in struct order,
`file_id` and `manifest_id` omitted when empty. -/
def fileInfoJSON (f : FileInfo) : String :=
  "    \x7b\n      \"path\": " ++ quoteJSON f.path
    ++ ",\n      \"sha256\": " ++ quoteJSON f.sha256
    ++ (if f.fileID = "" then "" else ",\n      \"file_id\": " ++ quoteJSON f.fileID)
    ++ (if f.manifestID = "" then "" else ",\n      \"manifest_id\": " ++ quoteJSON f.manifestID)
    ++ "\n    \x7d"

/-- Models the `json.MarshalIndent` output for the `files` slice.  `scanFolder` builds
`Files` with `var files []FileInfo` plus `append`, so an empty result is a
nil slice, which Go marshals as `null`. -/
def filesJSON : List FileInfo → String
  | [] => "null"
  | f :: rest => "[\n" ++ String.intercalate ",\n" ((f :: rest).map fileInfoJSON) ++ "\n  ]"

/-- Models the `json.MarshalIndent` output for `LogInfo`, fields in struct order,
`output_file` omitted when empty. -/
def logInfoJSON (l : LogInfo) : String :=
  "\x7b\n    \"generated_at\": " ++ quoteJSON l.generatedAt
    ++ ",\n    \"openai_api_key\": " ++ quoteJSON l.openAIAPIKey
    ++ ",\n    \"scan_folder\": " ++ quoteJSON l.scanFolder
    ++ ",\n    \"vector_store_id\": " ++ quoteJSON l.vectorStoreID
    ++ ",\n    \"cleanup\": " ++ boolJSON l.cleanup
    ++ ",\n    \"dry_run\": " ++ boolJSON l.dryRun
    ++ (if l.outputFile = "" then "" else ",\n    \"output_file\": " ++ quoteJSON l.outputFile)
    ++ "\n  \x7d"

/-- Embeds `json.MarshalIndent(manifest, "", "  ")` (main.go line 289) for
the `Manifest` struct: fields in struct declaration order; only map keys
would be sorted, and `Manifest` contains no map, so `files` entries appear
in slice order. -/
def marshalManifest (m : Manifest) : String :=
  "\x7b\n  \"manifest_id\": " ++ quoteJSON m.manifestID
    ++ ",\n  \"files\": " ++ filesJSON m.files
    ++ ",\n  \"log_info\": " ++ logInfoJSON m.loggingInfo
    ++ "\n\x7d"

/-- The observable effect of `saveOrPrintManifest`: bytes printed to the
console, or `(path, bytes)` written to the output file. -/
structure SaveEffect where
  printed : Option String
  written : Option (String × String)
deriving DecidableEq, Repr

/-- Embeds `saveOrPrintManifest` (main.go lines 288-296). -/
def saveOrPrintManifest (manifest : Manifest) (outputPath : String) : SaveEffect :=
  if outputPath = "" then ⟨some (marshalManifest manifest), none⟩
  else ⟨none, some (outputPath, marshalManifest manifest)⟩

/-- The observable outcome of one run of `main`: the paths sent to
`uploadFile`, the ids sent to `createVectorStoreFile`, the ids sent to
`deleteFile`/`removeFromVectorStore`, the manifest value passed to
`saveOrPrintManifest`, and the save effect itself. -/
structure RunResult where
  uploads : List String
  indexed : List String
  deleteCalls : List String
  savedManifest : Manifest
  save : SaveEffect
deriving DecidableEq, Repr

/-- Embeds `main` (main.go lines 60-113).  Abstracted inputs: `generatedAt`
stands for `time.Now()`, `genID` for `generateManifestID(folder)` (a hash
of the walked paths), `uploadId` for the identifier the remote store
returns for each uploaded path, `disk` for the state of the file at
`output`, and `inventory` for the folder walk. -/
def runMain (apiKey folder vectorStoreID output generatedAt genID : String)
    (cleanup dryRun : Bool) (uploadId : String → String)
    (disk : DiskState) (inventory : List (String × String)) : RunResult :=
  let loaded := (loadManifest disk).1
  let manifest := if loaded.manifestID = "" then
      ⟨genID, loaded.files, loaded.loggingInfo⟩ else loaded
  let updated0 := scanFolder inventory manifest
  let logInfo : LogInfo :=
    ⟨generatedAt, hideAPIKey apiKey, folder, vectorStoreID, cleanup, dryRun, output⟩
  let updated1 : Manifest := ⟨updated0.manifestID, updated0.files, logInfo⟩
  let updated2 : Manifest := if dryRun then updated1 else
    ⟨updated1.manifestID, applyUploads uploadId updated1.files, updated1.loggingInfo⟩
  let deletes := if cleanup ∧ ¬ dryRun then performCleanup updated2 manifest else []
  ⟨if dryRun then [] else uploadCalls updated1.files,
   if dryRun then [] else indexCalls uploadId updated1.files,
   deletes,
   updated2,
   saveOrPrintManifest updated2 output⟩

/-- One observable point of the upload loop (main.go lines 94-103):
the `Files` list as currently mutated, and the set of ids whose
index-registration (`createVectorStoreFile`) has completed. -/
structure LoopState where
  files : List FileInfo
  indexed : List String
deriving DecidableEq, Repr

/-- The sequence of observable states of the upload loop (main.go lines
94-103) run over `pending`, with `done` the already-processed prefix.  For
a record with empty `FileID`, line 97 assigns the id returned by the
upload before line 101 registers it in the vector store, so the
intermediate state after the assignment and before the registration is
part of the trace. -/
def uploadLoopStates (u : String → String) (done pending : List FileInfo)
    (indexed : List String) : List LoopState :=
  match pending with
  | [] => [⟨done, indexed⟩]
  | f :: rest =>
    if f.fileID = "" then
      let fid := u f.path
      let f' : FileInfo := ⟨f.path, f.sha256, fid, f.manifestID⟩
      ⟨done ++ f :: rest, indexed⟩ ::
      ⟨done ++ f' :: rest, indexed⟩ ::
      uploadLoopStates u (done ++ [f']) rest (indexed ++ [fid])
    else
      ⟨done ++ f :: rest, indexed⟩ :: uploadLoopStates u (done ++ [f]) rest indexed

/-! ## Lemmas about the map model -/

theorem mapLookup_insert_self (m : List FileInfo) (f : FileInfo) :
    mapLookup (mapInsert m f) f.path = some f := by
  induction m with
  | nil => simp [mapInsert, mapLookup]
  | cons g rest ih =>
    by_cases h : g.path = f.path
    · simp [mapInsert, mapLookup, h]
    · simp [mapInsert, mapLookup, h, ih]

theorem mapLookup_insert_other (m : List FileInfo) (f : FileInfo) (p : String)
    (h : p ≠ f.path) : mapLookup (mapInsert m f) p = mapLookup m p := by
  induction m with
  | nil => simp [mapInsert, mapLookup, Ne.symm h]
  | cons g rest ih =>
    by_cases hg : g.path = f.path
    · simp [mapInsert, mapLookup, hg, Ne.symm h, hg.symm ▸ Ne.symm h]
    · simp [mapInsert, mapLookup, hg, ih]

theorem mem_pathsOf_insert (m : List FileInfo) (f : FileInfo) (x : String)
    (hx : x ∈ pathsOf (mapInsert m f)) : x = f.path ∨ x ∈ pathsOf m := by
  induction m with
  | nil => simpa [mapInsert, pathsOf] using hx
  | cons g rest ih =>
    by_cases hg : g.path = f.path
    · simp only [mapInsert, hg, if_true] at hx
      simp only [pathsOf, List.map_cons, List.mem_cons] at hx ⊢
      tauto
    · simp only [mapInsert, hg, if_false] at hx
      simp only [pathsOf, List.map_cons, List.mem_cons] at hx ⊢
      rcases hx with h1 | h2
      · tauto
      · rcases ih h2 with h3 | h4 <;> tauto

theorem pathsOf_insert_nodup (m : List FileInfo) (f : FileInfo)
    (h : (pathsOf m).Nodup) : (pathsOf (mapInsert m f)).Nodup := by
  induction m with
  | nil => simp [mapInsert, pathsOf]
  | cons g rest ih =>
    simp only [pathsOf, List.map_cons, List.nodup_cons] at h
    by_cases hg : g.path = f.path
    · simp only [mapInsert, hg, if_true]
      simp only [pathsOf, List.map_cons, List.nodup_cons]
      exact ⟨hg ▸ h.1, h.2⟩
    · simp only [mapInsert, hg, if_false]
      simp only [pathsOf, List.map_cons, List.nodup_cons]
      refine ⟨fun hc => ?_, ih h.2⟩
      rcases mem_pathsOf_insert rest f g.path hc with h1 | h2
      · exact hg h1
      · exact h.1 h2

theorem mem_of_mem_insert (m : List FileInfo) (f g : FileInfo)
    (hg : g ∈ mapInsert m f) : g = f ∨ g ∈ m := by
  induction m with
  | nil => simpa [mapInsert] using hg
  | cons a rest ih =>
    by_cases ha : a.path = f.path
    · simp only [mapInsert, ha, if_true, List.mem_cons] at hg
      simp only [List.mem_cons]
      tauto
    · simp only [mapInsert, ha, if_false, List.mem_cons] at hg
      simp only [List.mem_cons]
      rcases hg with h1 | h2
      · tauto
      · rcases ih h2 with h3 | h4 <;> tauto

theorem mapInsert_of_not_mem (m : List FileInfo) (f : FileInfo)
    (h : f.path ∉ pathsOf m) : mapInsert m f = m ++ [f] := by
  induction m with
  | nil => simp [mapInsert]
  | cons g rest ih =>
    simp only [pathsOf, List.map_cons, List.mem_cons] at h
    push_neg at h
    simp only [mapInsert, Ne.symm h.1, if_false, List.cons_append, List.cons.injEq, true_and]
    exact ih h.2

/-! ## Lemmas about `buildMap` -/

theorem foldl_mapInsert_nodup (fs : List FileInfo) (acc : List FileInfo)
    (h : (pathsOf acc).Nodup) : (pathsOf (fs.foldl mapInsert acc)).Nodup := by
  induction fs generalizing acc with
  | nil => simpa using h
  | cons f rest ih =>
    simp only [List.foldl_cons]
    exact ih (mapInsert acc f) (pathsOf_insert_nodup acc f h)

theorem mem_of_mem_foldl_mapInsert (fs : List FileInfo) (acc : List FileInfo)
    (g : FileInfo) (hg : g ∈ fs.foldl mapInsert acc) : g ∈ acc ∨ g ∈ fs := by
  induction fs generalizing acc with
  | nil => simpa using hg
  | cons f rest ih =>
    simp only [List.foldl_cons] at hg
    rcases ih (mapInsert acc f) hg with h1 | h2
    · rcases mem_of_mem_insert acc f g h1 with h3 | h4
      · exact Or.inr (h3 ▸ List.mem_cons_self f rest)
      · exact Or.inl h4
    · exact Or.inr (List.mem_cons_of_mem f h2)

theorem foldl_mapInsert_eq_append (fs : List FileInfo) (acc : List FileInfo)
    (h1 : ∀ f ∈ fs, f.path ∉ pathsOf acc) (h2 : (pathsOf fs).Nodup) :
    fs.foldl mapInsert acc = acc ++ fs := by
  induction fs generalizing acc with
  | nil => simp
  | cons f rest ih =>
    simp only [pathsOf, List.map_cons, List.nodup_cons] at h2
    simp only [List.foldl_cons]
    rw [mapInsert_of_not_mem acc f (h1 f (List.mem_cons_self f rest))]
    rw [ih (acc ++ [f]) ?_ h2.2]
    · simp
    · intro g hgmem
      simp only [pathsOf, List.map_append, List.mem_append, List.map_cons,
        List.mem_singleton, List.map_nil]
      push_neg
      refine ⟨h1 g (List.mem_cons_of_mem f hgmem), fun hc => h2.1 ?_⟩
      rw [← hc]
      exact List.mem_map_of_mem FileInfo.path hgmem

theorem buildMap_nodup (fs : List FileInfo) : (pathsOf (buildMap fs)).Nodup :=
  foldl_mapInsert_nodup fs [] (by simp [pathsOf])

theorem mem_of_mem_buildMap (fs : List FileInfo) (g : FileInfo)
    (hg : g ∈ buildMap fs) : g ∈ fs := by
  rcases mem_of_mem_foldl_mapInsert fs [] g hg with h1 | h2
  · simp at h1
  · exact h2

theorem buildMap_eq_self (fs : List FileInfo) (h : (pathsOf fs).Nodup) :
    buildMap fs = fs := by
  unfold buildMap
  rw [foldl_mapInsert_eq_append fs [] (by simp [pathsOf]) h]
  simp

theorem mapLookup_buildMap (fs : List FileInfo) (p : String)
    (h : (pathsOf fs).Nodup) : mapLookup (buildMap fs) p = mapLookup fs p := by
  rw [buildMap_eq_self fs h]

/-! ## Lemmas about the scan step and scan fold -/

theorem scanOutcome_sha (mid : String) (old : Option FileInfo) (e : String × String) :
    (scanOutcome mid old e).sha256 = e.2 := by
  rcases old with _ | fi
  · simp [scanOutcome]
  · by_cases h : fi.sha256 = e.2 <;> simp [scanOutcome, h]

theorem mapLookup_scanStep_self (mid : String) (m : List FileInfo) (e : String × String) :
    mapLookup (scanStep mid m e) e.1 = some (scanOutcome mid (mapLookup m e.1) e) := by
  unfold scanStep scanOutcome
  rcases hm : mapLookup m e.1 with _ | fi
  · exact mapLookup_insert_self m ⟨e.1, e.2, "", mid⟩
  · by_cases h : fi.sha256 = e.2
    · simp [h, hm]
    · simpa [h] using mapLookup_insert_self m ⟨e.1, e.2, "", mid⟩

theorem mapLookup_scanStep_other (mid : String) (m : List FileInfo)
    (e : String × String) (q : String) (h : q ≠ e.1) :
    mapLookup (scanStep mid m e) q = mapLookup m q := by
  unfold scanStep
  rcases hm : mapLookup m e.1 with _ | fi
  · exact mapLookup_insert_other m ⟨e.1, e.2, "", mid⟩ q h
  · by_cases hs : fi.sha256 = e.2
    · simp [hs]
    · simpa [hs] using mapLookup_insert_other m ⟨e.1, e.2, "", mid⟩ q h

theorem scanStep_nodup (mid : String) (m : List FileInfo) (e : String × String)
    (h : (pathsOf m).Nodup) : (pathsOf (scanStep mid m e)).Nodup := by
  unfold scanStep
  rcases mapLookup m e.1 with _ | fi
  · exact pathsOf_insert_nodup m _ h
  · by_cases hs : fi.sha256 = e.2
    · simpa [hs] using h
    · simpa [hs] using pathsOf_insert_nodup m ⟨e.1, e.2, "", mid⟩ h

theorem mem_of_mem_scanStep (mid : String) (m : List FileInfo) (e : String × String)
    (g : FileInfo) (hg : g ∈ scanStep mid m e) : g ∈ m ∨ g.fileID = "" := by
  unfold scanStep at hg
  rcases hm : mapLookup m e.1 with _ | fi
  · rw [hm] at hg
    rcases mem_of_mem_insert m _ g hg with h1 | h2
    · exact Or.inr (by simp [h1])
    · exact Or.inl h2
  · rw [hm] at hg
    by_cases hs : fi.sha256 = e.2
    · simp only [hs, ne_eq, not_true_eq_false, if_false] at hg
      exact Or.inl hg
    · simp only [ne_eq, hs, not_false_eq_true, if_true] at hg
      rcases mem_of_mem_insert m _ g hg with h1 | h2
      · exact Or.inr (by simp [h1])
      · exact Or.inl h2

theorem mapLookup_foldl_scanStep_not_mem (mid : String) (inv : List (String × String))
    (m : List FileInfo) (q : String) (h : q ∉ inv.map Prod.fst) :
    mapLookup (inv.foldl (scanStep mid) m) q = mapLookup m q := by
  induction inv generalizing m with
  | nil => simp
  | cons e rest ih =>
    simp only [List.map_cons, List.mem_cons] at h
    push_neg at h
    simp only [List.foldl_cons]
    rw [ih (scanStep mid m e) h.2, mapLookup_scanStep_other mid m e q h.1]

theorem mapLookup_foldl_scanStep_mem (mid : String) (inv : List (String × String))
    (m : List FileInfo) (e : String × String) (hn : (inv.map Prod.fst).Nodup)
    (he : e ∈ inv) :
    mapLookup (inv.foldl (scanStep mid) m) e.1 =
      some (scanOutcome mid (mapLookup m e.1) e) := by
  induction inv generalizing m with
  | nil => simp at he
  | cons a rest ih =>
    simp only [List.map_cons, List.nodup_cons] at hn
    rcases List.mem_cons.1 he with h1 | h2
    · subst h1
      simp only [List.foldl_cons]
      rw [mapLookup_foldl_scanStep_not_mem mid rest (scanStep mid m e) e.1 hn.1]
      exact mapLookup_scanStep_self mid m e
    · have hne : e.1 ≠ a.1 := by
        intro hc
        exact hn.1 (hc ▸ List.mem_map_of_mem Prod.fst h2)
      simp only [List.foldl_cons]
      rw [ih (scanStep mid m a) hn.2 h2, mapLookup_scanStep_other mid m a e.1 hne]

theorem foldl_scanStep_nodup (mid : String) (inv : List (String × String))
    (m : List FileInfo) (h : (pathsOf m).Nodup) :
    (pathsOf (inv.foldl (scanStep mid) m)).Nodup := by
  induction inv generalizing m with
  | nil => simpa using h
  | cons e rest ih =>
    simp only [List.foldl_cons]
    exact ih (scanStep mid m e) (scanStep_nodup mid m e h)

theorem mem_of_mem_foldl_scanStep (mid : String) (inv : List (String × String))
    (m : List FileInfo) (g : FileInfo) (hg : g ∈ inv.foldl (scanStep mid) m) :
    g ∈ m ∨ g.fileID = "" := by
  induction inv generalizing m with
  | nil => exact Or.inl (by simpa using hg)
  | cons e rest ih =>
    simp only [List.foldl_cons] at hg
    rcases ih (scanStep mid m e) hg with h1 | h2
    · exact mem_of_mem_scanStep mid m e g h1
    · exact Or.inr h2

theorem foldl_scanStep_retain (mid : String) (inv : List (String × String))
    (m : List FileInfo)
    (h : ∀ e ∈ inv, ∃ fi, mapLookup m e.1 = some fi ∧ fi.sha256 = e.2) :
    inv.foldl (scanStep mid) m = m := by
  induction inv with
  | nil => simp
  | cons e rest ih =>
    obtain ⟨fi, hfi, hsha⟩ := h e (List.mem_cons_self e rest)
    have hstep : scanStep mid m e = m := by
      unfold scanStep
      rw [hfi]
      simp [hsha]
    simp only [List.foldl_cons, hstep]
    exact ih fun a ha => h a (List.mem_cons_of_mem e ha)

/-! ## Lemmas about the upload loop and cleanup -/

theorem pathsOf_applyUploads (u : String → String) (fs : List FileInfo) :
    pathsOf (applyUploads u fs) = pathsOf fs := by
  induction fs with
  | nil => simp [applyUploads, pathsOf]
  | cons f rest ih =>
    simp only [applyUploads, List.map_cons, pathsOf] at ih ⊢
    by_cases h : f.fileID = "" <;> simp [h, ih]

theorem mapLookup_applyUploads (u : String → String) (fs : List FileInfo) (p : String) :
    mapLookup (applyUploads u fs) p =
      (mapLookup fs p).map
        fun f => if f.fileID = "" then ⟨f.path, f.sha256, u f.path, f.manifestID⟩ else f := by
  induction fs with
  | nil => simp [applyUploads, mapLookup]
  | cons f rest ih =>
    by_cases hp : f.path = p
    · by_cases h : f.fileID = "" <;> simp [applyUploads, mapLookup, hp, h]
    · by_cases h : f.fileID = "" <;>
        simpa [applyUploads, mapLookup, hp, h] using ih

theorem fileID_applyUploads (u : String → String) (fs : List FileInfo)
    (hu : ∀ p, u p ≠ "") : ∀ f ∈ applyUploads u fs, f.fileID ≠ "" := by
  intro f hf
  simp only [applyUploads, List.mem_map] at hf
  obtain ⟨g, _, hg⟩ := hf
  by_cases h : g.fileID = ""
  · simp only [h, if_true] at hg
    rw [← hg]
    exact hu g.path
  · simp only [h, if_false] at hg
    rw [← hg]
    exact h

theorem applyUploads_of_nonempty (u : String → String) (fs : List FileInfo)
    (h : ∀ f ∈ fs, f.fileID ≠ "") : applyUploads u fs = fs := by
  induction fs with
  | nil => simp [applyUploads]
  | cons f rest ih =>
    have hf := h f (List.mem_cons_self f rest)
    simp only [applyUploads, List.map_cons, hf, if_false, List.cons.injEq, true_and]
    exact ih fun g hg => h g (List.mem_cons_of_mem f hg)

theorem uploadCalls_eq_nil (fs : List FileInfo) (h : ∀ f ∈ fs, f.fileID ≠ "") :
    uploadCalls fs = [] := by
  have hfil : fs.filter (fun f => f.fileID = "") = [] :=
    List.filter_eq_nil_iff.2 fun f hf => by simpa using h f hf
  simp [uploadCalls, hfil]

theorem performCleanup_eq_nil (updatedManifest oldManifest : Manifest)
    (h : ∀ f ∈ oldManifest.files, f.fileID ∈ updatedManifest.files.map FileInfo.fileID) :
    performCleanup updatedManifest oldManifest = [] := by
  have hfil : oldManifest.files.filter
      (fun f => ! (updatedManifest.files.map FileInfo.fileID).contains f.fileID) = [] :=
    List.filter_eq_nil_iff.2 fun f hf => by simpa using h f hf
  show List.map FileInfo.fileID (oldManifest.files.filter
    (fun f => ! (updatedManifest.files.map FileInfo.fileID).contains f.fileID)) = []
  rw [hfil]
  simp

theorem uploadLoopStates_final (u : String → String) (pending done : List FileInfo)
    (indexed : List String) :
    (⟨done ++ applyUploads u pending, indexed ++ indexCalls u pending⟩ : LoopState) ∈
      uploadLoopStates u done pending indexed := by
  induction pending generalizing done indexed with
  | nil => simp [uploadLoopStates, applyUploads, indexCalls, uploadCalls]
  | cons f rest ih =>
    by_cases h : f.fileID = ""
    · have h1 : applyUploads u (f :: rest) =
          ⟨f.path, f.sha256, u f.path, f.manifestID⟩ :: applyUploads u rest := by
        simp [applyUploads, h]
      have h2 : indexCalls u (f :: rest) = u f.path :: indexCalls u rest := by
        simp [indexCalls, uploadCalls, h]
      simp only [uploadLoopStates, h, if_true, List.mem_cons, h1, h2]
      refine Or.inr (Or.inr ?_)
      have := ih (done ++ [⟨f.path, f.sha256, u f.path, f.manifestID⟩]) (indexed ++ [u f.path])
      simpa using this
    · have h1 : applyUploads u (f :: rest) = f :: applyUploads u rest := by
        simp [applyUploads, h]
      have h2 : indexCalls u (f :: rest) = indexCalls u rest := by
        simp [indexCalls, uploadCalls, h]
      simp only [uploadLoopStates, h, if_false, List.mem_cons, h1, h2]
      refine Or.inr ?_
      have := ih (done ++ [f]) indexed
      simpa using this

/-! ## Claim theorems -/

/-- Claim C1 (code bug): the claim and the spec require that a prior record
whose path is absent from the inventory be dropped from the new manifest's
`files`.  The code keeps it: scanning an empty inventory against a prior
manifest holding the record for path `"a"` returns a manifest that still
contains that record unchanged, so the new manifest's set of paths
(`["a"]`) is not the inventory's set of paths (`[]`). -/
theorem C1_stale_record_kept :
    (scanFolder [] ⟨"m", [⟨"a", "h", "r1", "m"⟩], zeroLogInfo⟩).files
        = [⟨"a", "h", "r1", "m"⟩]
    ∧ pathsOf (scanFolder [] ⟨"m", [⟨"a", "h", "r1", "m"⟩], zeroLogInfo⟩).files
        ≠ ([] : List (String × String)).map Prod.fst := by
  decide

/-- Claim C2 (code bug): with cleanup enabled, for a prior record
`(path "a", remote id "r1")` whose path is absent from the inventory, the
claim (and the README's description of the cleanup flag) requires exactly
one `Delete("r1")`.  The full run emits none: the stale record survives
into the updated manifest with its `FileID`, so `performCleanup`, which
keys on `FileID`, never sees it as missing. -/
theorem C2_cleanup_skips_removed_file :
    (runMain "key" "folder" "vs" "manifest.json" "t" "gid" true false
        (fun _ => "fresh") (.valid ⟨"m", [⟨"a", "h", "r1", "m"⟩], zeroLogInfo⟩)
        []).deleteCalls = [] := by
  decide

/-- Claim C7 (counterexample): loading a malformed persisted manifest
neither fails with a DecodeError nor logs a warning: it silently yields
the zero-value manifest with an empty warning list. -/
theorem C7_counterexample : loadManifest .corrupt = (zeroManifest, []) := rfl

/-- Claim C7 (amended): loading returns the empty manifest when no prior
state exists, and when the persisted state is malformed it falls back to
the empty manifest silently — no DecodeError is possible and no warning is
ever logged, on any disk state. -/
theorem C7_amended :
    (loadManifest .absent).1 = zeroManifest
    ∧ (loadManifest .corrupt).1 = zeroManifest
    ∧ ∀ d : DiskState, (loadManifest d).2 = [] :=
  ⟨rfl, rfl, fun d => by cases d <;> rfl⟩

/-- Claim C8 (counterexample): an inventory containing path `"a"` twice
does not make reconciliation fail with a ValidationError before any remote
call; the run proceeds normally and issues an upload call for `"a"`, and
the scan simply collapses the duplicate (last differing fingerprint
wins). -/
theorem C8_counterexample :
    (runMain "key" "folder" "vs" "" "t" "gid" false false (fun _ => "r1")
        .absent [("a", "h1"), ("a", "h2")]).uploads = ["a"]
    ∧ (scanFolder [("a", "h1"), ("a", "h2")] zeroManifest).files
        = [⟨"a", "h2", "", ""⟩] := by
  decide

/-- Claim C8 (amended): reconciliation performs no duplicate-path
validation and cannot fail on any input: the scan is total, duplicate
inventory paths are silently collapsed into a single record per path (the
result's paths are always pairwise distinct), and the run proceeds to
remote calls. -/
theorem C8_amended (inv : List (String × String)) (manifest : Manifest) :
    (pathsOf (scanFolder inv manifest).files).Nodup :=
  foldl_scanStep_nodup manifest.manifestID inv (buildMap manifest.files)
    (buildMap_nodup manifest.files)

/-- Claim C10 (counterexample): for the 3-character key `"ab*"` the mask is
`"***"`; the character `'*'` of the key appears in the mask (indeed at its
own position), so "no character of the key appears" fails as stated. -/
theorem C10_counterexample :
    hideAPIKey "ab*" = "***"
    ∧ '*' ∈ "ab*".data ∧ '*' ∈ (hideAPIKey "ab*").data := by
  decide

/-- Claim C10 (amended): the mask has the same length as the key; for a
key longer than 6 characters it is the first 3 characters, then asterisks,
then the last 3 characters; for a key of at most 6 characters it is
entirely asterisks — so no character of the key is copied into the masked
middle, though a `'*'` occurring in the key coincides with the mask. -/
theorem C10_amended (k : String) :
    (hideAPIKey k).length = k.length
    ∧ (6 < k.length →
        (hideAPIKey k).data.take 3 = k.data.take 3
        ∧ (hideAPIKey k).data.drop (k.length - 3) = k.data.drop (k.length - 3)
        ∧ ∀ c ∈ ((hideAPIKey k).data.drop 3).take (k.length - 6), c = '*')
    ∧ (k.length ≤ 6 → ∀ c ∈ (hideAPIKey k).data, c = '*') := by
  have hlen : k.length = k.data.length := rfl
  by_cases h : 6 < k.length
  · have h' : 6 < k.data.length := h
    have hdata : (hideAPIKey k).data =
        k.data.take 3 ++ (List.replicate (k.length - 6) '*'
          ++ k.data.drop (k.length - 3)) := by
      rw [hideAPIKey, if_pos h']
      exact List.append_assoc _ _ _
    have htake : (k.data.take 3).length = 3 := by
      simp only [List.length_take]
      omega
    refine ⟨?_, fun _ => ⟨?_, ?_, ?_⟩, fun hc => absurd h (by omega)⟩
    · show (hideAPIKey k).data.length = k.data.length
      rw [hdata]
      simp only [List.length_append, List.length_take, List.length_replicate,
        List.length_drop]
      rw [hlen]
      omega
    · rw [hdata, List.take_left' htake]
    · rw [hdata, ← List.append_assoc]
      have hlen2 : (k.data.take 3 ++ List.replicate (k.length - 6) '*').length
          = k.length - 3 := by
        simp only [List.length_append, List.length_take, List.length_replicate]
        rw [hlen]
        omega
      rw [List.drop_left' hlen2]
    · intro c hc
      rw [hdata, List.drop_left' htake] at hc
      rw [List.take_left' (by simp)] at hc
      exact List.eq_of_mem_replicate hc
  · have h' : ¬ 6 < k.data.length := h
    have hdata : (hideAPIKey k).data = List.replicate k.data.length '*' := by
      rw [hideAPIKey, if_neg h']
    refine ⟨?_, fun hc => absurd hc (by omega), fun _ c hc => ?_⟩
    · show (hideAPIKey k).data.length = k.data.length
      rw [hdata]
      simp only [List.length_replicate]
    · rw [hdata] at hc
      exact List.eq_of_mem_replicate hc

/-- Claim C10 (amended, witness): concrete instances of the amended mask
properties at the keys `"abcdefgh"` and `"ab*"`. -/
theorem C10_amended_witness :
    ((hideAPIKey "abcdefgh").data.take 3 = "abcdefgh".data.take 3
      ∧ (hideAPIKey "abcdefgh").data.drop 5 = "abcdefgh".data.drop 5
      ∧ ∀ c ∈ ((hideAPIKey "abcdefgh").data.drop 3).take 2, c = '*')
    ∧ ∀ c ∈ (hideAPIKey "ab*").data, c = '*' :=
  ⟨(C10_amended "abcdefgh").2.1 (by decide), (C10_amended "ab*").2.2 (by decide)⟩

/-- Claim C5 (confirmed): for an inventory entry `e = (path, fingerprint)`
(unique paths in prior and inventory), if a prior record for `e`'s path
exists with an equal fingerprint, the new manifest carries that record
forward unchanged (in particular its `remote_id`); if no prior record
exists, or the fingerprints differ, the new manifest holds a fresh record
with `e`'s path and fingerprint, an empty `remote_id`, and the manifest's
id — so with an empty prior manifest every inventory path is a fresh
upload. -/
theorem C5_classification (prior : Manifest) (inv : List (String × String))
    (e : String × String) (hprior : (pathsOf prior.files).Nodup)
    (hinv : (inv.map Prod.fst).Nodup) (he : e ∈ inv) :
    (∀ r, mapLookup prior.files e.1 = some r → r.sha256 = e.2 →
        mapLookup (scanFolder inv prior).files e.1 = some r)
    ∧ (mapLookup prior.files e.1 = none →
        mapLookup (scanFolder inv prior).files e.1
          = some ⟨e.1, e.2, "", prior.manifestID⟩)
    ∧ (∀ r, mapLookup prior.files e.1 = some r → r.sha256 ≠ e.2 →
        mapLookup (scanFolder inv prior).files e.1
          = some ⟨e.1, e.2, "", prior.manifestID⟩) := by
  have hmain : mapLookup (scanFolder inv prior).files e.1
      = some (scanOutcome prior.manifestID (mapLookup prior.files e.1) e) := by
    show mapLookup (inv.foldl (scanStep prior.manifestID) (buildMap prior.files)) e.1 = _
    rw [mapLookup_foldl_scanStep_mem prior.manifestID inv (buildMap prior.files) e hinv he,
      mapLookup_buildMap prior.files e.1 hprior]
  refine ⟨fun r hr hsha => ?_, fun hr => ?_, fun r hr hsha => ?_⟩
  · rw [hmain, hr]
    simp [scanOutcome, hsha]
  · rw [hmain, hr]
    simp [scanOutcome]
  · rw [hmain, hr]
    simp [scanOutcome, hsha]

/-- Claim C5 (witness): with a prior record for `"a"` at fingerprint
`"h1"` and a fresh path `"b"`, the scan retains the `"a"` record unchanged
and creates a fresh record for `"b"` with empty remote id. -/
theorem C5_classification_witness :
    mapLookup (scanFolder [("a", "h1"), ("b", "h2")]
        ⟨"m", [⟨"a", "h1", "r1", "m"⟩], zeroLogInfo⟩).files "a"
      = some ⟨"a", "h1", "r1", "m"⟩
    ∧ mapLookup (scanFolder [("a", "h1"), ("b", "h2")]
        ⟨"m", [⟨"a", "h1", "r1", "m"⟩], zeroLogInfo⟩).files "b"
      = some ⟨"b", "h2", "", "m"⟩ :=
  ⟨(C5_classification ⟨"m", [⟨"a", "h1", "r1", "m"⟩], zeroLogInfo⟩
      [("a", "h1"), ("b", "h2")] ("a", "h1") (by decide) (by decide) (by decide)).1
      ⟨"a", "h1", "r1", "m"⟩ (by decide) (by decide),
   (C5_classification ⟨"m", [⟨"a", "h1", "r1", "m"⟩], zeroLogInfo⟩
      [("a", "h1"), ("b", "h2")] ("b", "h2") (by decide) (by decide) (by decide)).2.1
      (by decide)⟩

/-- Claim C9 (confirmed): after applying the plan — every record with an
empty remote id receives the (non-empty) id assigned by the store — a
second reconciliation against the same inventory (with unique paths)
changes nothing: its files equal the applied files (everything Retain), it
classifies nothing for upload, and cleanup of the second run deletes
nothing. -/
theorem C9_idempotent (prior : Manifest) (inv : List (String × String))
    (u : String → String) (log1 : LogInfo)
    (hinv : (inv.map Prod.fst).Nodup) (hu : ∀ p, u p ≠ "") :
    let applied : Manifest := ⟨(scanFolder inv prior).manifestID,
      applyUploads u (scanFolder inv prior).files, log1⟩
    (scanFolder inv applied).files = applied.files
    ∧ uploadCalls (scanFolder inv applied).files = []
    ∧ performCleanup (scanFolder inv applied) applied = [] := by
  intro applied
  have hAnodup : (pathsOf applied.files).Nodup := by
    show (pathsOf (applyUploads u (scanFolder inv prior).files)).Nodup
    rw [pathsOf_applyUploads]
    exact foldl_scanStep_nodup prior.manifestID inv (buildMap prior.files)
      (buildMap_nodup prior.files)
  have hAall : ∀ f ∈ applied.files, f.fileID ≠ "" :=
    fileID_applyUploads u (scanFolder inv prior).files hu
  have hlook : ∀ e ∈ inv, ∃ fi, mapLookup applied.files e.1 = some fi
      ∧ fi.sha256 = e.2 := by
    intro e he
    have h1 : mapLookup (scanFolder inv prior).files e.1
        = some (scanOutcome prior.manifestID
            (mapLookup (buildMap prior.files) e.1) e) :=
      mapLookup_foldl_scanStep_mem prior.manifestID inv (buildMap prior.files) e hinv he
    have h2 := mapLookup_applyUploads u (scanFolder inv prior).files e.1
    rw [h1] at h2
    refine ⟨_, h2, ?_⟩
    by_cases hfid : (scanOutcome prior.manifestID
        (mapLookup (buildMap prior.files) e.1) e).fileID = "" <;>
      simp [hfid, scanOutcome_sha]
  have hsecond : (scanFolder inv applied).files = applied.files := by
    show inv.foldl (scanStep applied.manifestID) (buildMap applied.files) = applied.files
    rw [buildMap_eq_self applied.files hAnodup]
    exact foldl_scanStep_retain applied.manifestID inv applied.files hlook
  refine ⟨hsecond, ?_, ?_⟩
  · rw [hsecond]
    exact uploadCalls_eq_nil applied.files hAall
  · refine performCleanup_eq_nil _ _ ?_
    intro f hf
    rw [hsecond]
    exact List.mem_map_of_mem FileInfo.fileID hf

/-- Claim C9 (witness): concrete idempotence instance — one fresh path
`"a"`, upload assigns `"r1"`, and the second scan leaves the applied
manifest's files unchanged. -/
theorem C9_idempotent_witness :
    (scanFolder [("a", "h")] ⟨(scanFolder [("a", "h")] zeroManifest).manifestID,
        applyUploads (fun _ => "r1") (scanFolder [("a", "h")] zeroManifest).files,
        zeroLogInfo⟩).files
      = applyUploads (fun _ => "r1") (scanFolder [("a", "h")] zeroManifest).files :=
  (C9_idempotent zeroManifest [("a", "h")] (fun _ => "r1") zeroLogInfo
    (by decide) (fun p => by show ("r1" : String) ≠ ""; decide)).1

set_option maxRecDepth 8192 in
set_option maxRecDepth 8192 in
/-- Claim C3 (counterexample): a dry run with a non-empty plan (path `"a"`
is classified for upload) still writes the manifest file, and the written
bytes differ from the pre-run bytes (the marshalled prior manifest): the
on-disk manifest is not left byte-identical. -/
theorem C3_counterexample :
    ((runMain "key" "f" "v" "out.json" "2024-06-01T00:00:00Z" "g" false true
        (fun _ => "rX") (.valid ⟨"m", [], zeroLogInfo⟩)
        [("a", "h")]).savedManifest.files.filter fun f => f.fileID = "") ≠ []
    ∧ (runMain "key" "f" "v" "out.json" "2024-06-01T00:00:00Z" "g" false true
        (fun _ => "rX") (.valid ⟨"m", [], zeroLogInfo⟩) [("a", "h")]).save.written
      = some ("out.json", marshalManifest (runMain "key" "f" "v" "out.json"
          "2024-06-01T00:00:00Z" "g" false true (fun _ => "rX")
          (.valid ⟨"m", [], zeroLogInfo⟩) [("a", "h")]).savedManifest)
    ∧ marshalManifest (runMain "key" "f" "v" "out.json" "2024-06-01T00:00:00Z" "g"
        false true (fun _ => "rX") (.valid ⟨"m", [], zeroLogInfo⟩)
        [("a", "h")]).savedManifest
      ≠ marshalManifest ⟨"m", [], zeroLogInfo⟩ := by
  decide

/-- Claim C3 (amended): in dry-run mode no RemoteStore call is made (no
upload, no index-registration, no delete) and no new remote identifier is
persisted — every saved record with a non-empty remote id is a record of
the loaded prior manifest — but the manifest is still written or printed,
so the on-disk bytes are not preserved. -/
theorem C3_amended (apiKey folder vectorStoreID output generatedAt genID : String)
    (cleanup : Bool) (uploadId : String → String) (disk : DiskState)
    (inventory : List (String × String)) (r : RunResult)
    (hr : r = runMain apiKey folder vectorStoreID output generatedAt genID
        cleanup true uploadId disk inventory) :
    r.uploads = [] ∧ r.indexed = [] ∧ r.deleteCalls = []
    ∧ ∀ f ∈ r.savedManifest.files, f.fileID ≠ "" → f ∈ (loadManifest disk).1.files := by
  subst hr
  refine ⟨rfl, rfl, by simp [runMain], ?_⟩
  intro f hf hfid
  have hfiles : ∃ mid, (runMain apiKey folder vectorStoreID output generatedAt genID
      cleanup true uploadId disk inventory).savedManifest.files
      = inventory.foldl (scanStep mid) (buildMap (loadManifest disk).1.files) := by
    by_cases hid : (loadManifest disk).1.manifestID = ""
    · exact ⟨genID, by simp [runMain, scanFolder, hid]⟩
    · exact ⟨(loadManifest disk).1.manifestID, by simp [runMain, scanFolder, hid]⟩
  obtain ⟨mid, hfiles⟩ := hfiles
  rw [hfiles] at hf
  rcases mem_of_mem_foldl_scanStep mid inventory _ f hf with h1 | h2
  · exact mem_of_mem_buildMap _ f h1
  · exact absurd h2 hfid

/-- Claim C3 (amended, witness): a concrete dry run issues no remote calls
and persists no new remote identifier. -/
theorem C3_amended_witness :
    (runMain "key" "f" "v" "out.json" "t" "g" false true (fun _ => "rX")
        (.valid ⟨"m", [⟨"a", "h", "r1", "m"⟩], zeroLogInfo⟩) [("a", "h")]).uploads = []
    ∧ (runMain "key" "f" "v" "out.json" "t" "g" false true (fun _ => "rX")
        (.valid ⟨"m", [⟨"a", "h", "r1", "m"⟩], zeroLogInfo⟩) [("a", "h")]).indexed = []
    ∧ (runMain "key" "f" "v" "out.json" "t" "g" false true (fun _ => "rX")
        (.valid ⟨"m", [⟨"a", "h", "r1", "m"⟩], zeroLogInfo⟩)
        [("a", "h")]).deleteCalls = []
    ∧ ∀ f ∈ (runMain "key" "f" "v" "out.json" "t" "g" false true (fun _ => "rX")
        (.valid ⟨"m", [⟨"a", "h", "r1", "m"⟩], zeroLogInfo⟩)
        [("a", "h")]).savedManifest.files, f.fileID ≠ "" →
          f ∈ (loadManifest (.valid ⟨"m", [⟨"a", "h", "r1", "m"⟩], zeroLogInfo⟩)).1.files :=
  C3_amended "key" "f" "v" "out.json" "t" "g" false (fun _ => "rX")
    (.valid ⟨"m", [⟨"a", "h", "r1", "m"⟩], zeroLogInfo⟩) [("a", "h")] _ rfl

/-- Claim C4 (counterexample): in the upload loop there is an observable
point at which the record for `"a"` already holds the remote id `"r1"`
while `"r1"` has not yet been index-registered: the id is assigned on
line 97 before `createVectorStoreFile` runs on line 101. -/
theorem C4_counterexample :
    (⟨[⟨"a", "h", "r1", ""⟩], []⟩ : LoopState) ∈
        uploadLoopStates (fun _ => "r1") [] [⟨"a", "h", "", ""⟩] []
    ∧ ∃ f ∈ (⟨[⟨"a", "h", "r1", ""⟩], []⟩ : LoopState).files,
        f.fileID ≠ "" ∧ f.fileID ∉ (⟨[⟨"a", "h", "r1", ""⟩], []⟩ : LoopState).indexed := by
  decide

/-- Claim C4 (amended): at every point of the upload loop, every record
with a non-empty remote id either had it before the loop started (already
indexed in an earlier run) or received it from a completed content upload
for its path; the index-registration of a freshly assigned id may still be
pending at the intermediate point between assignment and registration. -/
theorem C4_amended (u : String → String) (done pending : List FileInfo)
    (indexed : List String)
    (hdone : ∀ f ∈ done, f.fileID ≠ "" → f.fileID ∈ indexed)
    (hpending : ∀ f ∈ pending, f.fileID ≠ "" → f.fileID ∈ indexed) :
    ∀ s ∈ uploadLoopStates u done pending indexed, ∀ f ∈ s.files,
      f.fileID ≠ "" → f.fileID ∈ s.indexed ∨ f.fileID = u f.path := by
  induction pending generalizing done indexed with
  | nil =>
    intro s hs f hf hfid
    simp only [uploadLoopStates, List.mem_singleton] at hs
    subst hs
    exact Or.inl (hdone f hf hfid)
  | cons f0 rest ih =>
    intro s hs f hf hfid
    by_cases h0 : f0.fileID = ""
    · simp only [uploadLoopStates, h0, if_true, List.mem_cons] at hs
      rcases hs with hs | hs | hs
      · subst hs
        simp only [List.mem_append, List.mem_cons] at hf
        rcases hf with h1 | h2 | h3
        · exact Or.inl (hdone f h1 hfid)
        · exact absurd (h2 ▸ hfid) (by simp [h0])
        · exact Or.inl (hpending f (List.mem_cons_of_mem f0 h3) hfid)
      · subst hs
        simp only [List.mem_append, List.mem_cons] at hf
        rcases hf with h1 | h2 | h3
        · exact Or.inl (hdone f h1 hfid)
        · exact Or.inr (by rw [h2])
        · exact Or.inl (hpending f (List.mem_cons_of_mem f0 h3) hfid)
      · refine ih (done ++ [⟨f0.path, f0.sha256, u f0.path, f0.manifestID⟩])
          (indexed ++ [u f0.path]) ?_ ?_ s hs f hf hfid
        · intro g hg hgid
          simp only [List.mem_append, List.mem_singleton] at hg
          rcases hg with h1 | h2
          · exact List.mem_append_left _ (hdone g h1 hgid)
          · subst h2
            simp
        · intro g hg hgid
          exact List.mem_append_left _
            (hpending g (List.mem_cons_of_mem f0 hg) hgid)
    · simp only [uploadLoopStates, h0, if_false, List.mem_cons] at hs
      rcases hs with hs | hs
      · subst hs
        simp only [List.mem_append, List.mem_cons] at hf
        rcases hf with h1 | h2 | h3
        · exact Or.inl (hdone f h1 hfid)
        · exact Or.inl (h2 ▸ hpending f0 (List.mem_cons_self f0 rest) h0)
        · exact Or.inl (hpending f (List.mem_cons_of_mem f0 h3) hfid)
      · refine ih (done ++ [f0]) indexed ?_ ?_ s hs f hf hfid
        · intro g hg hgid
          simp only [List.mem_append, List.mem_singleton] at hg
          rcases hg with h1 | h2
          · exact hdone g h1 hgid
          · exact h2 ▸ hpending f0 (List.mem_cons_self f0 rest) h0
        · intro g hg hgid
          exact hpending g (List.mem_cons_of_mem f0 hg) hgid

/-- Claim C4 (amended, witness): the amended loop invariant instantiated
at the intermediate state of a concrete one-record loop and at its single
record, which carries the freshly uploaded id `"r9"`. -/
theorem C4_amended_witness :
    ("r9" : String) ∈ ([] : List String) ∨ ("r9" : String) = "r9" :=
  C4_amended (fun _ => "r9") [] [⟨"a", "h", "", ""⟩] [] (by decide) (by decide)
    ⟨[⟨"a", "h", "r9", ""⟩], []⟩ (by decide) ⟨"a", "h", "r9", ""⟩ (by decide) (by decide)

/-- Claim C6 (counterexample): two manifests holding the same path-to-record
mapping (their files lists are permutations of each other) serialize to
different bytes, so entries are emitted in list order, not ordered by
sorted keys — and the list order comes from Go's randomised map iteration
in `scanFolder`. -/
theorem C6_counterexample :
    ([⟨"b", "h2", "r2", "m"⟩, ⟨"a", "h1", "r1", "m"⟩] : List FileInfo).Perm
        [⟨"a", "h1", "r1", "m"⟩, ⟨"b", "h2", "r2", "m"⟩]
    ∧ marshalManifest ⟨"m", [⟨"b", "h2", "r2", "m"⟩, ⟨"a", "h1", "r1", "m"⟩], zeroLogInfo⟩
      ≠ marshalManifest ⟨"m", [⟨"a", "h1", "r1", "m"⟩, ⟨"b", "h2", "r2", "m"⟩], zeroLogInfo⟩ := by
  constructor
  · decide
  · decide

/-- Claim C6 (amended): serialization is a pure function of the manifest
value — two saves of structurally equal manifests (same id, same files
list, same log info) produce identical bytes — but the `files` entries are
emitted in the list's order, which is not sorted by path, so
mapping-equal manifests can serialize differently. -/
theorem C6_amended (m1 m2 : Manifest) (hid : m1.manifestID = m2.manifestID)
    (hfiles : m1.files = m2.files) (hlog : m1.loggingInfo = m2.loggingInfo) :
    marshalManifest m1 = marshalManifest m2 := by
  obtain ⟨i1, f1, l1⟩ := m1
  obtain ⟨i2, f2, l2⟩ := m2
  simp only at hid hfiles hlog
  subst hid
  subst hfiles
  subst hlog
  rfl

/-- Claim C6 (amended, witness): determinism instance at a concrete
manifest. -/
theorem C6_amended_witness :
    marshalManifest ⟨"m", [⟨"a", "h1", "r1", "m"⟩], zeroLogInfo⟩
      = marshalManifest ⟨"m", [⟨"a", "h1", "r1", "m"⟩], zeroLogInfo⟩ :=
  C6_amended ⟨"m", [⟨"a", "h1", "r1", "m"⟩], zeroLogInfo⟩
    ⟨"m", [⟨"a", "h1", "r1", "m"⟩], zeroLogInfo⟩ rfl rfl rfl
